import Mathlib

/-!
Verification of the career-recommendation engine
(`backend/src/controllers/careerController.js`).

The development shallowly embeds the controller: JS arrays become `List`,
the stable `Array.prototype.sort` (stable per ECMAScript 2019) becomes a
stable insertion sort on a numeric key, JS objects built by
`{ skill, score, ...skillInfo }` become association lists with
insert-or-overwrite semantics, and the IEEE-754 binary64 evaluation of
`Math.round((matchCount / totalRequired) * 100)` is modelled exactly with
dyadic rationals (integer mantissa and power-of-two exponent, rounding to
53 bits, round-to-nearest ties-to-even, and `Math.round` ties toward +∞).
-/

namespace SkillCompass

/-- A row of the Roles table (`roles.json`): a role name and its required
skill names. -/
structure Role where
  role : String
  requiredSkills : List String
deriving DecidableEq, Repr

/-- A row of the Skills table (`skills.json`). The JSON data file is not part
of the sources; per the spec's data model a row has a `name` join key and
arbitrary further descriptive fields, modelled as an association list of
integer-valued attributes. -/
structure Skill where
  name : String
  fields : List (String × Int)
deriving DecidableEq, Repr

/-- A JavaScript value appearing in a result object: a string or a number. -/
inductive JsVal where
  | s (v : String)
  | n (v : Int)
deriving DecidableEq, Repr

/-- A JavaScript object, as an association list in property-insertion order. -/
abbrev JsObj := List (String × JsVal)

/-- The per-role record built by the `roles.map` step of the controller. -/
structure MatchRec where
  role : String
  matchCount : Nat
  totalRequired : Nat
deriving DecidableEq, Repr

/-- The JSON body sent by `res.json({...})` on success. -/
structure RecResult where
  role : String
  matchPercentage : Nat
  recommendedSkills : List JsObj
deriving DecidableEq, Repr

/-- The observable HTTP response of the handler. -/
inductive Response where
  | status400 (message : String)
  | status200 (result : RecResult)
deriving DecidableEq, Repr

/-! ## Binary64 model of `Math.round((matchCount / totalRequired) * 100)`

Nonnegative doubles are represented exactly as dyadic rationals
`m * 2 ^ e` with `m : Nat`. `flRat a b` is the correctly rounded binary64
quotient `a / b` (round to nearest, ties to even); `flDy` rounds a dyadic
back to 53 significant bits after the multiplication by 100; `jsRound` is
the exact ECMAScript `Math.round` (nearest integer, ties toward +∞). -/

/-- Round `num / den` to the nearest natural number, ties to even. -/
def rnEven (num den : Nat) : Nat :=
  let q := num / den
  let r := num % den
  if 2 * r < den then q
  else if den < 2 * r then q + 1
  else if q % 2 = 0 then q else q + 1

/-- A nonnegative dyadic rational `m * 2 ^ e`. -/
structure Dyadic where
  m : Nat
  e : Int
deriving DecidableEq, Repr

/-- The rational value of a dyadic. -/
def Dyadic.toRat (d : Dyadic) : ℚ := (d.m : ℚ) * (2 : ℚ) ^ d.e

/-- Fuel-driven binary logarithm (structurally recursive so that concrete
instances of the model evaluate inside the kernel). -/
def log2F (fuel n : Nat) : Nat :=
  match fuel with
  | 0 => 0
  | fuel + 1 => if 2 ≤ n then log2F fuel (n / 2) + 1 else 0

/-- `⌊log₂ n⌋` for `n ≥ 1` (and 0 at 0). -/
def log2N (n : Nat) : Nat := log2F n n

/-- `true` iff `2 ^ k ≤ a / b` (for `b ≠ 0`). -/
def pow2le (k : Int) (a b : Nat) : Bool :=
  if 0 ≤ k then b * 2 ^ k.toNat ≤ a else b ≤ a * 2 ^ (-k).toNat

/-- `⌊log₂ (a / b)⌋` for positive naturals `a`, `b`. -/
def ilog2 (a b : Nat) : Int :=
  let k0 : Int := (log2N a : Int) - (log2N b : Int)
  if pow2le k0 a b then k0 else k0 - 1

/-- The binary64 quotient `a / b`, correctly rounded (round to nearest,
ties to even). For the controller's range no overflow or underflow occurs. -/
def flRat (a b : Nat) : Dyadic :=
  if a = 0 then ⟨0, 0⟩
  else if 0 ≤ ilog2 a b - 52 then
    ⟨rnEven a (b * 2 ^ (ilog2 a b - 52).toNat), ilog2 a b - 52⟩
  else ⟨rnEven (a * 2 ^ (-(ilog2 a b - 52)).toNat) b, ilog2 a b - 52⟩

/-- Round a dyadic to 53 significant bits (round to nearest, ties to even):
the binary64 rounding applied after an exact product. -/
def flDy (d : Dyadic) : Dyadic :=
  if d.m < 2 ^ 53 then d
  else ⟨rnEven d.m (2 ^ (log2N d.m - 52)), d.e + (log2N d.m - 52 : Nat)⟩

/-- The binary64 product `d * 100`: the exact product rounded to 53 bits. -/
def mul100 (d : Dyadic) : Dyadic := flDy ⟨d.m * 100, d.e⟩

/-- ECMAScript `Math.round` on a nonnegative double: the closest integer,
ties toward +∞. Exact on the dyadic representation. -/
def jsRound (d : Dyadic) : Nat :=
  if 0 ≤ d.e then d.m * 2 ^ d.e.toNat
  else if 2 ^ (-d.e).toNat ≤ 2 * (d.m % 2 ^ (-d.e).toNat) then d.m / 2 ^ (-d.e).toNat + 1
  else d.m / 2 ^ (-d.e).toNat

/-- `Math.round((m / t) * 100)` exactly as binary64 evaluates it. -/
def matchPercentage (m t : Nat) : Nat := jsRound (mul100 (flRat m t))

/-- The spec's idealised percentage: round-half-away-from-zero of the exact
rational `m * 100 / t` (for nonnegative values, identical to round-half-up):
`⌊(200 * m + t) / (2 * t)⌋`. -/
def specPercentage (m t : Nat) : Nat := (200 * m + t) / (2 * t)

/-! ## The stable sort model of `Array.prototype.sort`

The controller sorts with comparators `(a, b) => b.matchCount - a.matchCount`
and `(a, b) => b.score - a.score`, i.e. descending by an integer key.
ECMAScript 2019 requires `sort` to be stable, and for a consistent comparator
the sorted stable permutation is unique, so any stable descending sort is a
faithful model; we use insertion sort. -/

/-- Insert `x` into `l`, passing over the elements with a strictly larger
key, so that `x` lands before all elements of equal key. -/
def insertDesc (key : α → Int) (x : α) : List α → List α
  | [] => [x]
  | y :: ys => if key x < key y then y :: insertDesc key x ys else x :: y :: ys

/-- Stable sort by descending `key`. -/
def sortDescBy (key : α → Int) : List α → List α
  | [] => []
  | x :: xs => insertDesc key x (sortDescBy key xs)

/-- First element of `l` whose key is maximal (the element a stable
descending sort places first). -/
def firstMaxBy (key : α → Int) (l : List α) : Option α :=
  l.find? fun a => l.all fun b => key b ≤ key a

/-! ## JS object model for `{ skill, score, ...skillInfo }` -/

/-- JS property assignment `o[k] = v`: overwrite in place if the key exists
(keeping its position), otherwise append. -/
def objInsert (o : JsObj) (k : String) (v : JsVal) : JsObj :=
  if o.any fun p => p.1 == k then
    o.map fun p => if p.1 == k then (k, v) else p
  else o ++ [(k, v)]

/-- Spread `...fields` into `o`: assign each property in order. -/
def spreadInto (o : JsObj) (fields : JsObj) : JsObj :=
  fields.foldl (fun acc p => objInsert acc p.1 p.2) o

/-- The own properties of a Skills-table row, in order: the `name` join key
followed by the descriptive fields. `...undefined` spreads nothing. -/
def skillFields : Option Skill → JsObj
  | none => []
  | some sk => ("name", JsVal.s sk.name) :: sk.fields.map fun p => (p.1, JsVal.n p.2)

/-- The object literal `{ skill, score, ...skillInfo }`. -/
def mkEntry (skill : String) (score : Int) (info : Option Skill) : JsObj :=
  spreadInto (objInsert (objInsert [] "skill" (JsVal.s skill)) "score" (JsVal.n score)) (skillFields info)

/-- The value the comparator `(a, b) => b.score - a.score` reads: the
object's `score` property (always present and numeric for objects built by
`mkEntry`). -/
def scoreOf (o : JsObj) : Int :=
  match o.lookup "score" with
  | some (JsVal.n v) => v
  | _ => 0

/-! ## The scoring function

`backend/src/utils/scoring.js` is imported by the controller but is not
among the sources. -/

/-- Modelled from the spec: the Scoring Function of §4.2 (the missing
`backend/src/utils/scoring.js`). It maps a possibly-absent metadata record
to a number, is total, substitutes a zero default for absent fields, and is
monotone in the `demand` attribute. -/
def calculateScore (info : Option Skill) : Int :=
  match info with
  | none => 0
  | some sk => ((sk.fields.lookup "demand").getD 0)

/-! ## The controller -/

/-- The match count of one role: `requiredSkills.filter(s => userSkills.includes(s)).length`. -/
def matchCnt (userSkills : List String) (r : Role) : Nat :=
  (r.requiredSkills.filter fun skill => userSkills.contains skill).length

/-- The record built for one role by the `roles.map` step. -/
def toMatchRec (userSkills : List String) (role : Role) : MatchRec :=
  ⟨role.role, matchCnt userSkills role, role.requiredSkills.length⟩

/-- `roles.map(role => ({ role, matchCount, totalRequired }))`. -/
def matchRecs (userSkills : List String) (roles : List Role) : List MatchRec :=
  roles.map (toMatchRec userSkills)

/-- The sort key of the role records: `matchCount`, descending. -/
def matchKey (r : MatchRec) : Int := (r.matchCount : Int)

/-- `.sort((a, b) => b.matchCount - a.matchCount)` applied to the mapped
records. -/
def sortedMatches (userSkills : List String) (roles : List Role) : List MatchRec :=
  sortDescBy matchKey (matchRecs userSkills roles)

/-- The `missingSkills` array: the matched role's required skills absent from
`userSkills`, each mapped to `{ skill, score, ...skillInfo }` with the
metadata looked up by name in the Skills table. -/
def missingSkills (scoreFn : Option Skill → Int) (userSkills : List String)
    (skillsData : List Skill) (target : Role) : List JsObj :=
  (target.requiredSkills.filter fun skill => !(userSkills.contains skill)).map
    fun skill =>
      let skillInfo := skillsData.find? fun s => s.name == skill
      mkEntry skill (scoreFn skillInfo) skillInfo

/-- The handler `recommendCareer`. `body` is the request's `skills` field
(`none` when absent); `none` in the result marks the uncaught `TypeError`
paths (reading `.role` of `undefined` after `[0]` on an empty array, or
`.requiredSkills` of `undefined` after a failed `roles.find`). -/
def recommendCareer (scoreFn : Option Skill → Int) (roles : List Role)
    (skillsData : List Skill) (body : Option (List String)) : Option Response :=
  let userSkills := body.getD []
  if userSkills.length = 0 then some (Response.status400 "Skills are required")
  else
    match (sortedMatches userSkills roles).head? with
    | none => none
    | some matchedRole =>
      match roles.find? fun r => r.role == matchedRole.role with
      | none => none
      | some targetRole =>
        let sortedRecommendations :=
          sortDescBy scoreOf (missingSkills scoreFn userSkills skillsData targetRole)
        some (Response.status200
          ⟨matchedRole.role,
           matchPercentage matchedRole.matchCount matchedRole.totalRequired,
           sortedRecommendations.take 3⟩)

/-- Extract the `matchPercentage` of a success response. -/
def resultPct : Option Response → Option Nat
  | some (Response.status200 r) => some r.matchPercentage
  | _ => none


/-- The role the spec designates: the first role of the table (stored order)
whose match count is maximal over the whole table. -/
def firstMaxRole (userSkills : List String) (roles : List Role) : Option Role :=
  roles.find? fun r => roles.all fun r2 => matchCnt userSkills r2 ≤ matchCnt userSkills r

/-! ## Heap model for the frame property

`Array.prototype.map`, `filter` and `slice` allocate fresh arrays while
`sort` mutates its receiver in place. To check that a request never mutates
the shared tables, the controller is re-run over an explicit heap of
arrays: the module-level `roles` and `skillsData` arrays live at addresses
0 and 1, every array-producing expression allocates a fresh cell, and
`sort` overwrites the cell of the array it is called on. -/

/-- A heap cell: one JS array. -/
inductive Cell where
  | roleA (l : List Role)
  | skillA (l : List Skill)
  | strA (l : List String)
  | matchA (l : List MatchRec)
  | objA (l : List JsObj)
deriving DecidableEq

/-- The heap: arrays indexed by address. -/
abbrev Heap := List Cell

/-- Read the role array at address `i`. -/
def readRoleA (h : Heap) (i : Nat) : Option (List Role) :=
  match h[i]? with
  | some (Cell.roleA l) => some l
  | _ => none

/-- Read the skill array at address `i`. -/
def readSkillA (h : Heap) (i : Nat) : Option (List Skill) :=
  match h[i]? with
  | some (Cell.skillA l) => some l
  | _ => none

/-- Read the string array at address `i`. -/
def readStrA (h : Heap) (i : Nat) : Option (List String) :=
  match h[i]? with
  | some (Cell.strA l) => some l
  | _ => none

/-- Read the match-record array at address `i`. -/
def readMatchA (h : Heap) (i : Nat) : Option (List MatchRec) :=
  match h[i]? with
  | some (Cell.matchA l) => some l
  | _ => none

/-- Read the object array at address `i`. -/
def readObjA (h : Heap) (i : Nat) : Option (List JsObj) :=
  match h[i]? with
  | some (Cell.objA l) => some l
  | _ => none

/-- Allocate a fresh array, returning its address. -/
def alloc (h : Heap) (c : Cell) : Nat × Heap := (h.length, h ++ [c])

/-- The handler over the explicit heap. Every array the controller creates
(`roles.map(...)`, `requiredSkills.filter(...)`, `.map(...)`, `.slice(0,3)`)
is allocated; the two `.sort(...)` calls overwrite the cell they are called
on; the module-level tables are only read. -/
def recommendCareerHeap (scoreFn : Option Skill → Int)
    (body : Option (List String)) (h : Heap) : Option Response × Heap :=
  let userSkills := body.getD []
  if userSkills.length = 0 then (some (Response.status400 "Skills are required"), h)
  else
    match readRoleA h 0, readSkillA h 1 with
    | some roles, some skillsData =>
      let (aM, h1) := alloc h (Cell.matchA (matchRecs userSkills roles))
      let h2 := match readMatchA h1 aM with
        | some ms => h1.set aM (Cell.matchA (sortDescBy matchKey ms))
        | none => h1
      match ((readMatchA h2 aM).getD []).head? with
      | none => (none, h2)
      | some matchedRole =>
        match roles.find? fun r => r.role == matchedRole.role with
        | none => (none, h2)
        | some targetRole =>
          let (aF, h3) := alloc h2
            (Cell.strA (targetRole.requiredSkills.filter fun skill =>
              !(userSkills.contains skill)))
          let (aO, h4) := alloc h3
            (Cell.objA (((readStrA h3 aF).getD []).map fun skill =>
              let skillInfo := skillsData.find? fun s => s.name == skill
              mkEntry skill (scoreFn skillInfo) skillInfo))
          let h5 := match readObjA h4 aO with
            | some os => h4.set aO (Cell.objA (sortDescBy scoreOf os))
            | none => h4
          let (aS, h6) := alloc h5 (Cell.objA (((readObjA h5 aO).getD []).take 3))
          (some (Response.status200
            ⟨matchedRole.role,
             matchPercentage matchedRole.matchCount matchedRole.totalRequired,
             (readObjA h6 aS).getD []⟩), h6)
    | _, _ => (none, h)

/-! ## Properties of the stable sort -/

theorem insertDesc_perm (key : α → Int) (x : α) (l : List α) :
    (insertDesc key x l).Perm (x :: l) := by
  induction l with
  | nil => simp [insertDesc]
  | cons y ys ih =>
    simp only [insertDesc]
    split
    · exact (ih.cons y).trans (List.Perm.swap x y ys)
    · exact List.Perm.refl _

theorem sortDescBy_perm (key : α → Int) (l : List α) :
    (sortDescBy key l).Perm l := by
  induction l with
  | nil => exact List.Perm.refl _
  | cons x xs ih =>
    exact (insertDesc_perm key x (sortDescBy key xs)).trans (ih.cons x)

theorem insertDesc_sorted (key : α → Int) (x : α) (l : List α)
    (h : l.Pairwise fun a b => key b ≤ key a) :
    (insertDesc key x l).Pairwise fun a b => key b ≤ key a := by
  induction l with
  | nil => simp [insertDesc]
  | cons y ys ih =>
    rcases List.pairwise_cons.mp h with ⟨hy, hys⟩
    simp only [insertDesc]
    split
    · next hlt =>
      refine List.pairwise_cons.mpr ⟨?_, ih hys⟩
      intro z hz
      rcases List.mem_cons.mp ((insertDesc_perm key x ys).mem_iff.mp hz) with rfl | hz'
      · exact le_of_lt hlt
      · exact hy z hz'
    · next hnlt =>
      have hxy : key y ≤ key x := le_of_not_lt hnlt
      refine List.pairwise_cons.mpr ⟨?_, h⟩
      intro z hz
      rcases List.mem_cons.mp hz with rfl | hz'
      · exact hxy
      · exact le_trans (hy z hz') hxy

theorem sortDescBy_sorted (key : α → Int) (l : List α) :
    (sortDescBy key l).Pairwise fun a b => key b ≤ key a := by
  induction l with
  | nil => simp [sortDescBy]
  | cons x xs ih => exact insertDesc_sorted key x _ ih

theorem insertDesc_filter_key (key : α → Int) (c : Int) (x : α) (l : List α) :
    (insertDesc key x l).filter (fun a => key a == c) =
      (x :: l).filter fun a => key a == c := by
  induction l with
  | nil => rfl
  | cons y ys ih =>
    simp only [insertDesc]
    split
    · next hlt =>
      by_cases hx : key x = c <;> by_cases hy : key y = c
    --subcase both equal: contradiction with strict inequality
      · exact absurd (hx.trans hy.symm) (ne_of_lt hlt)
      · simp only [List.filter_cons, hx, hy, beq_iff_eq, if_neg, if_pos, ih]
        simp [List.filter_cons, hx, hy]
      · simp only [List.filter_cons, beq_iff_eq, hx, hy, ih]
        simp [List.filter_cons, hx, hy]
      · simp only [List.filter_cons, beq_iff_eq, hx, hy, ih]
        simp [List.filter_cons, hx, hy]
    · rfl

theorem sortDescBy_filter_key (key : α → Int) (c : Int) (l : List α) :
    (sortDescBy key l).filter (fun a => key a == c) =
      l.filter fun a => key a == c := by
  induction l with
  | nil => rfl
  | cons x xs ih =>
    rw [sortDescBy, insertDesc_filter_key, List.filter_cons, List.filter_cons, ih]

theorem insertDesc_head? (key : α → Int) (x : α) (l : List α) :
    (insertDesc key x l).head? =
      some (match l.head? with
            | none => x
            | some y => if key x < key y then y else x) := by
  cases l with
  | nil => rfl
  | cons y ys =>
    simp only [insertDesc]
    by_cases h : key x < key y
    · simp [h]
    · simp [h]

theorem argmax_exists (key : α → Int) (l : List α) (h : l ≠ []) :
    ∃ a ∈ l, ∀ b ∈ l, key b ≤ key a := by
  induction l with
  | nil => exact absurd rfl h
  | cons x xs ih =>
    rcases eq_or_ne xs [] with rfl | hne
    · exact ⟨x, by simp, by simp⟩
    · obtain ⟨a, ha, hmax⟩ := ih hne
      rcases le_total (key a) (key x) with hax | hax
      · refine ⟨x, by simp, ?_⟩
        intro b hb
        rcases List.mem_cons.mp hb with rfl | hb'
        · exact le_refl _
        · exact le_trans (hmax b hb') hax
      · refine ⟨a, List.mem_cons_of_mem x ha, ?_⟩
        intro b hb
        rcases List.mem_cons.mp hb with rfl | hb'
        · exact hax
        · exact hmax b hb'

theorem find?_congr_mem {p q : α → Bool} (l : List α) (h : ∀ a ∈ l, p a = q a) :
    l.find? p = l.find? q := by
  induction l with
  | nil => rfl
  | cons x xs ih =>
    have hx := h x (List.mem_cons_self x xs)
    cases hq : q x with
    | true =>
      rw [List.find?_cons_of_pos _ (hx.trans hq), List.find?_cons_of_pos _ hq]
    | false =>
      rw [List.find?_cons_of_neg _ (by simp [hx.trans hq]),
        List.find?_cons_of_neg _ (by simp [hq])]
      exact ih fun a ha => h a (List.mem_cons_of_mem x ha)

theorem firstMaxBy_isSome (key : α → Int) (l : List α) (h : l ≠ []) :
    (firstMaxBy key l).isSome := by
  obtain ⟨a, ha, hmax⟩ := argmax_exists key l h
  rw [firstMaxBy, List.find?_isSome]
  exact ⟨a, ha, by simpa using hmax⟩

theorem sortDescBy_head? (key : α → Int) (l : List α) :
    (sortDescBy key l).head? = firstMaxBy key l := by
  induction l with
  | nil => rfl
  | cons x xs ih =>
    rw [sortDescBy, insertDesc_head?, ih]
    rcases hfm : firstMaxBy key xs with - | y
    · have hnil : xs = [] := by
        by_contra hne
        have hs := firstMaxBy_isSome key xs hne
        rw [hfm] at hs
        simp at hs
      subst hnil
      simp [firstMaxBy]
    · have hy := List.find?_some hfm
      have hymem := List.mem_of_find?_eq_some hfm
      simp only [List.all_eq_true, decide_eq_true_eq] at hy
      have hfm' : List.find? (fun a => xs.all fun b => key b ≤ key a) xs = some y := hfm
      show some (if key x < key y then y else x) = firstMaxBy key (x :: xs)
      by_cases hlt : key x < key y
      · rw [if_pos hlt, firstMaxBy]
        have hnx : ¬((x :: xs).all fun b => decide (key b ≤ key x)) = true := by
          intro hall
          simp only [List.all_eq_true, decide_eq_true_eq] at hall
          exact absurd (hall y (List.mem_cons_of_mem x hymem)) (not_le.mpr hlt)
        rw [List.find?_cons_of_neg (p := fun a => (x :: xs).all fun b => decide (key b ≤ key a)) xs hnx]
        refine (Eq.trans (find?_congr_mem xs ?_) hfm').symm
        intro a ha
        rw [List.all_cons]
        cases hpa : xs.all fun b => decide (key b ≤ key a) with
        | true =>
          have hpa' : ∀ b ∈ xs, key b ≤ key a := by
            simpa only [List.all_eq_true, decide_eq_true_eq] using hpa
          have hxa : key x ≤ key a := le_trans (le_of_lt hlt) (hpa' y hymem)
          simp [hxa]
        | false => simp
      · have hyx : key y ≤ key x := le_of_not_lt hlt
        rw [if_neg hlt, firstMaxBy]
        have hpx : ((x :: xs).all fun b => decide (key b ≤ key x)) = true := by
          simp only [List.all_cons, Bool.and_eq_true, List.all_eq_true, decide_eq_true_eq]
          exact ⟨le_refl _, fun b hb => le_trans (hy b hb) hyx⟩
        rw [List.find?_cons_of_pos (p := fun a => (x :: xs).all fun b => decide (key b ≤ key a)) xs hpx]

/-! ## Engine-level lemmas -/


theorem all_map_general {f : α → β} {l : List α} {p : β → Bool} :
    (l.map f).all p = l.all (p ∘ f) := by
  induction l with
  | nil => rfl
  | cons x xs ih => simp [List.all_cons, ih]

theorem all_congr_mem {p q : α → Bool} (l : List α) (h : ∀ a ∈ l, p a = q a) :
    l.all p = l.all q := by
  induction l with
  | nil => rfl
  | cons x xs ih =>
    rw [List.all_cons, List.all_cons, h x (List.mem_cons_self x xs),
      ih fun a ha => h a (List.mem_cons_of_mem x ha)]

theorem firstMaxBy_matchRecs (userSkills : List String) (roles : List Role) :
    firstMaxBy matchKey (matchRecs userSkills roles) =
      (firstMaxRole userSkills roles).map (toMatchRec userSkills) := by
  rw [firstMaxBy, matchRecs, List.find?_map, firstMaxRole]
  congr 1
  apply find?_congr_mem
  intro r hr
  show ((roles.map (toMatchRec userSkills)).all fun b =>
      decide (matchKey b ≤ matchKey (toMatchRec userSkills r))) = _
  rw [all_map_general]
  apply all_congr_mem
  intro r2 hr2
  show decide (matchKey (toMatchRec userSkills r2) ≤ matchKey (toMatchRec userSkills r)) = _
  apply decide_eq_decide.mpr
  show ((matchCnt userSkills r2 : Int) ≤ (matchCnt userSkills r : Int)) ↔ _
  exact Nat.cast_le

theorem sortedMatches_head? (userSkills : List String) (roles : List Role) :
    (sortedMatches userSkills roles).head? =
      (firstMaxRole userSkills roles).map (toMatchRec userSkills) := by
  rw [sortedMatches, sortDescBy_head?, firstMaxBy_matchRecs]

theorem matchRec_mem_of_head? (userSkills : List String) (roles : List Role)
    (m : MatchRec) (h : (sortedMatches userSkills roles).head? = some m) :
    m ∈ matchRecs userSkills roles := by
  have hmem : m ∈ sortedMatches userSkills roles :=
    List.mem_of_mem_head? (by rw [h]; rfl)
  exact (sortDescBy_perm matchKey (matchRecs userSkills roles)).mem_iff.mp hmem

theorem find?_role_isSome (userSkills : List String) (roles : List Role)
    (m : MatchRec) (h : (sortedMatches userSkills roles).head? = some m) :
    (roles.find? fun r => r.role == m.role).isSome := by
  have hmem := matchRec_mem_of_head? userSkills roles m h
  rw [matchRecs] at hmem
  obtain ⟨r, hr, hrm⟩ := List.mem_map.mp hmem
  rw [List.find?_isSome]
  refine ⟨r, hr, ?_⟩
  have : r.role = m.role := by rw [← hrm]; rfl
  simp [this]

theorem recommendCareer_success (scoreFn : Option Skill → Int) (roles : List Role)
    (skillsData : List Skill) (userSkills : List String)
    (hus : userSkills ≠ []) (hroles : roles ≠ []) :
    ∃ m target,
      (sortedMatches userSkills roles).head? = some m ∧
      roles.find? (fun r => r.role == m.role) = some target ∧
      recommendCareer scoreFn roles skillsData (some userSkills) =
        some (Response.status200
          ⟨m.role, matchPercentage m.matchCount m.totalRequired,
           (sortDescBy scoreOf (missingSkills scoreFn userSkills skillsData target)).take 3⟩) := by
  have hne : sortedMatches userSkills roles ≠ [] := by
    intro hnil
    have hperm := sortDescBy_perm matchKey (matchRecs userSkills roles)
    rw [sortedMatches] at hnil
    rw [hnil] at hperm
    have := hperm.symm.eq_nil
    rw [matchRecs, List.map_eq_nil_iff] at this
    exact hroles this
  obtain ⟨m, hm⟩ := Option.isSome_iff_exists.mp (List.head?_isSome.mpr hne)
  obtain ⟨target, htarget⟩ :=
    Option.isSome_iff_exists.mp (find?_role_isSome userSkills roles m hm)
  refine ⟨m, target, hm, htarget, ?_⟩
  simp only [recommendCareer, Option.getD_some]
  rw [if_neg (by simpa [List.length_eq_zero] using hus)]
  simp only [hm, htarget]

theorem sortedMatches_ne_nil (userSkills : List String) (roles : List Role)
    (hroles : roles ≠ []) : sortedMatches userSkills roles ≠ [] := by
  intro hnil
  have hperm := sortDescBy_perm matchKey (matchRecs userSkills roles)
  rw [sortedMatches] at hnil
  rw [hnil] at hperm
  have := hperm.symm.eq_nil
  rw [matchRecs, List.map_eq_nil_iff] at this
  exact hroles this

/-! ## Claim theorems -/

/-- C1: for every non-empty `userSkills` and non-empty Roles table the
handler answers 200 and the role in the result is the first role of the
table (in stored order) among those attaining the maximal match count; in
particular ties on the maximal match count go to the role listed first. -/
theorem matched_role_first_in_table (scoreFn : Option Skill → Int)
    (roles : List Role) (skillsData : List Skill) (userSkills : List String)
    (hus : userSkills ≠ []) (hroles : roles ≠ []) :
    ∃ res r,
      recommendCareer scoreFn roles skillsData (some userSkills) =
        some (Response.status200 res) ∧
      firstMaxRole userSkills roles = some r ∧ res.role = r.role := by
  obtain ⟨m, target, hm, htarget, hrun⟩ :=
    recommendCareer_success scoreFn roles skillsData userSkills hus hroles
  rw [sortedMatches_head?] at hm
  cases hfmr : firstMaxRole userSkills roles with
  | none => rw [hfmr] at hm; simp at hm
  | some r =>
    rw [hfmr] at hm
    simp only [Option.map_some', Option.some.injEq] at hm
    refine ⟨_, r, hrun, rfl, ?_⟩
    rw [← hm]
    rfl

/-- Witness for C1: two roles tie with match count 1 on `["x"]`; the result
names role `"A"`, the one listed first. -/
theorem matched_role_first_in_table_witness :
    (["x"] : List String) ≠ [] ∧
    ([Role.mk "A" ["x"], Role.mk "B" ["x", "y"]] : List Role) ≠ [] ∧
    ∃ res r,
      recommendCareer calculateScore [Role.mk "A" ["x"], Role.mk "B" ["x", "y"]]
          [] (some ["x"]) = some (Response.status200 res) ∧
      firstMaxRole ["x"] [Role.mk "A" ["x"], Role.mk "B" ["x", "y"]] = some r ∧
      res.role = r.role :=
  ⟨by decide, by decide,
    matched_role_first_in_table calculateScore
      [Role.mk "A" ["x"], Role.mk "B" ["x", "y"]] [] ["x"] (by decide) (by decide)⟩

/-- C7: whenever the first sort-and-index step selected a record, the
re-lookup of the matched role by name in the Roles table succeeds, so the
unguarded `targetRole.requiredSkills` access cannot hit `undefined`; a
record is always selected when the Roles table is non-empty. -/
theorem second_role_lookup_succeeds (userSkills : List String)
    (roles : List Role) (hroles : roles ≠ []) :
    ∃ m, (sortedMatches userSkills roles).head? = some m ∧
      (roles.find? fun r => r.role == m.role).isSome := by
  obtain ⟨m, hm⟩ := Option.isSome_iff_exists.mp
    (List.head?_isSome.mpr (sortedMatches_ne_nil userSkills roles hroles))
  exact ⟨m, hm, find?_role_isSome userSkills roles m hm⟩

/-- Witness for C7 at a one-role table. -/
theorem second_role_lookup_succeeds_witness :
    ([Role.mk "R" ["a"]] : List Role) ≠ [] ∧
    ∃ m, (sortedMatches ["b"] [Role.mk "R" ["a"]]).head? = some m ∧
      (List.find? (fun r => r.role == m.role) [Role.mk "R" ["a"]]).isSome :=
  ⟨by decide, second_role_lookup_succeeds ["b"] [Role.mk "R" ["a"]] (by decide)⟩

/-- C3: every entry of `recommendedSkills` is built from a skill that is a
member of the matched role's `requiredSkills` and is not a member of
`userSkills`. -/
theorem recommended_entries_from_missing_skills (scoreFn : Option Skill → Int)
    (roles : List Role) (skillsData : List Skill) (userSkills : List String)
    (hus : userSkills ≠ []) (hroles : roles ≠ []) :
    ∃ res m target,
      (sortedMatches userSkills roles).head? = some m ∧
      roles.find? (fun r => r.role == m.role) = some target ∧
      recommendCareer scoreFn roles skillsData (some userSkills) =
        some (Response.status200 res) ∧
      ∀ o ∈ res.recommendedSkills, ∃ skill,
        skill ∈ target.requiredSkills ∧ skill ∉ userSkills ∧
        o = mkEntry skill (scoreFn (skillsData.find? fun s => s.name == skill))
              (skillsData.find? fun s => s.name == skill) := by
  obtain ⟨m, target, hm, htarget, hrun⟩ :=
    recommendCareer_success scoreFn roles skillsData userSkills hus hroles
  refine ⟨_, m, target, hm, htarget, hrun, ?_⟩
  intro o ho
  have ho' : o ∈ sortDescBy scoreOf (missingSkills scoreFn userSkills skillsData target) :=
    List.Sublist.mem ho (List.take_sublist 3 _)
  have ho'' : o ∈ missingSkills scoreFn userSkills skillsData target :=
    (sortDescBy_perm scoreOf _).mem_iff.mp ho'
  rw [missingSkills] at ho''
  obtain ⟨skill, hsk, hmk⟩ := List.mem_map.mp ho''
  rw [List.mem_filter] at hsk
  obtain ⟨hreq, hnotin⟩ := hsk
  refine ⟨skill, hreq, ?_, hmk.symm⟩
  intro hmem
  rw [Bool.not_eq_true'] at hnotin
  have helem : userSkills.elem skill = true := List.elem_iff.mpr hmem
  simp only [List.contains, helem] at hnotin
  cases hnotin

/-- Witness for C3 on the spec §8.7 example scenario. -/
theorem recommended_entries_from_missing_skills_witness :
    (["Node"] : List String) ≠ [] ∧
    ([Role.mk "Backend Developer" ["Node", "SQL", "Docker"],
      Role.mk "Frontend Developer" ["React", "CSS"]] : List Role) ≠ [] ∧
    ∃ res m target,
      (sortedMatches ["Node"]
        [Role.mk "Backend Developer" ["Node", "SQL", "Docker"],
         Role.mk "Frontend Developer" ["React", "CSS"]]).head? = some m ∧
      List.find? (fun r => r.role == m.role)
        [Role.mk "Backend Developer" ["Node", "SQL", "Docker"],
         Role.mk "Frontend Developer" ["React", "CSS"]] = some target ∧
      recommendCareer calculateScore
        [Role.mk "Backend Developer" ["Node", "SQL", "Docker"],
         Role.mk "Frontend Developer" ["React", "CSS"]]
        [Skill.mk "SQL" [("demand", 9)], Skill.mk "Docker" [("demand", 7)]]
        (some ["Node"]) = some (Response.status200 res) ∧
      ∀ o ∈ res.recommendedSkills, ∃ skill,
        skill ∈ target.requiredSkills ∧ skill ∉ ["Node"] ∧
        o = mkEntry skill
              (calculateScore ((List.find? (fun s => s.name == skill))
                [Skill.mk "SQL" [("demand", 9)], Skill.mk "Docker" [("demand", 7)]]))
              ((List.find? (fun s => s.name == skill))
                [Skill.mk "SQL" [("demand", 9)], Skill.mk "Docker" [("demand", 7)]]) :=
  ⟨by decide, by decide,
    recommended_entries_from_missing_skills calculateScore
      [Role.mk "Backend Developer" ["Node", "SQL", "Docker"],
       Role.mk "Frontend Developer" ["React", "CSS"]]
      [Skill.mk "SQL" [("demand", 9)], Skill.mk "Docker" [("demand", 7)]]
      ["Node"] (by decide) (by decide)⟩

/-- C4: `recommendedSkills` is the first at-most-3 entries of the matched
role's missing skills sorted stably by descending score: the sorted list is
a permutation of the missing list, is pairwise descending on the `score`
the comparator reads, and entries of any equal score keep their scan order
(the filter at each score value is unchanged); the result never has more
than 3 entries. -/
theorem recommended_skills_ranking (scoreFn : Option Skill → Int)
    (roles : List Role) (skillsData : List Skill) (userSkills : List String)
    (hus : userSkills ≠ []) (hroles : roles ≠ []) :
    ∃ res m target,
      (sortedMatches userSkills roles).head? = some m ∧
      roles.find? (fun r => r.role == m.role) = some target ∧
      recommendCareer scoreFn roles skillsData (some userSkills) =
        some (Response.status200 res) ∧
      res.recommendedSkills =
        (sortDescBy scoreOf (missingSkills scoreFn userSkills skillsData target)).take 3 ∧
      (sortDescBy scoreOf (missingSkills scoreFn userSkills skillsData target)).Perm
        (missingSkills scoreFn userSkills skillsData target) ∧
      (sortDescBy scoreOf (missingSkills scoreFn userSkills skillsData target)).Pairwise
        (fun a b => scoreOf b ≤ scoreOf a) ∧
      (∀ c : Int,
        (sortDescBy scoreOf (missingSkills scoreFn userSkills skillsData target)).filter
            (fun o => scoreOf o == c) =
          (missingSkills scoreFn userSkills skillsData target).filter
            fun o => scoreOf o == c) ∧
      res.recommendedSkills.length ≤ 3 := by
  obtain ⟨m, target, hm, htarget, hrun⟩ :=
    recommendCareer_success scoreFn roles skillsData userSkills hus hroles
  exact ⟨_, m, target, hm, htarget, hrun, rfl,
    sortDescBy_perm scoreOf _, sortDescBy_sorted scoreOf _,
    fun c => sortDescBy_filter_key scoreOf c _,
    List.length_take_le 3 _⟩

/-- Witness for C4 on the spec §8.7 example scenario. -/
theorem recommended_skills_ranking_witness :
    (["Node"] : List String) ≠ [] ∧
    ([Role.mk "Backend Developer" ["Node", "SQL", "Docker"],
      Role.mk "Frontend Developer" ["React", "CSS"]] : List Role) ≠ [] ∧
    ∃ res m target,
      (sortedMatches ["Node"]
        [Role.mk "Backend Developer" ["Node", "SQL", "Docker"],
         Role.mk "Frontend Developer" ["React", "CSS"]]).head? = some m ∧
      List.find? (fun r => r.role == m.role)
        [Role.mk "Backend Developer" ["Node", "SQL", "Docker"],
         Role.mk "Frontend Developer" ["React", "CSS"]] = some target ∧
      recommendCareer calculateScore
        [Role.mk "Backend Developer" ["Node", "SQL", "Docker"],
         Role.mk "Frontend Developer" ["React", "CSS"]]
        [Skill.mk "SQL" [("demand", 9)], Skill.mk "Docker" [("demand", 7)]]
        (some ["Node"]) = some (Response.status200 res) ∧
      res.recommendedSkills =
        (sortDescBy scoreOf (missingSkills calculateScore ["Node"]
          [Skill.mk "SQL" [("demand", 9)], Skill.mk "Docker" [("demand", 7)]] target)).take 3 ∧
      (sortDescBy scoreOf (missingSkills calculateScore ["Node"]
        [Skill.mk "SQL" [("demand", 9)], Skill.mk "Docker" [("demand", 7)]] target)).Perm
        (missingSkills calculateScore ["Node"]
          [Skill.mk "SQL" [("demand", 9)], Skill.mk "Docker" [("demand", 7)]] target) ∧
      (sortDescBy scoreOf (missingSkills calculateScore ["Node"]
        [Skill.mk "SQL" [("demand", 9)], Skill.mk "Docker" [("demand", 7)]] target)).Pairwise
        (fun a b => scoreOf b ≤ scoreOf a) ∧
      (∀ c : Int,
        (sortDescBy scoreOf (missingSkills calculateScore ["Node"]
          [Skill.mk "SQL" [("demand", 9)], Skill.mk "Docker" [("demand", 7)]] target)).filter
            (fun o => scoreOf o == c) =
          (missingSkills calculateScore ["Node"]
            [Skill.mk "SQL" [("demand", 9)], Skill.mk "Docker" [("demand", 7)]] target).filter
            fun o => scoreOf o == c) ∧
      res.recommendedSkills.length ≤ 3 :=
  ⟨by decide, by decide,
    recommended_skills_ranking calculateScore
      [Role.mk "Backend Developer" ["Node", "SQL", "Docker"],
       Role.mk "Frontend Developer" ["React", "CSS"]]
      [Skill.mk "SQL" [("demand", 9)], Skill.mk "Docker" [("demand", 7)]]
      ["Node"] (by decide) (by decide)⟩

/-- C5: a request with no `skills` field or an empty `skills` array gets
exactly HTTP 400 with body `{"message":"Skills are required"}`, and the
response does not depend on the tables or the scoring function — the
matching, scoring and ranking steps are never reached. -/
theorem empty_skills_rejected (scoreFn scoreFn2 : Option Skill → Int)
    (roles roles2 : List Role) (skillsData skillsData2 : List Skill)
    (body : Option (List String)) (h : body = none ∨ body = some []) :
    recommendCareer scoreFn roles skillsData body =
      some (Response.status400 "Skills are required") ∧
    recommendCareer scoreFn roles skillsData body =
      recommendCareer scoreFn2 roles2 skillsData2 body := by
  rcases h with rfl | rfl <;> exact ⟨rfl, rfl⟩

/-- Witness for C5 with an empty `skills` array and two unrelated table
pairs. -/
theorem empty_skills_rejected_witness :
    ((some [] : Option (List String)) = none ∨ (some [] : Option (List String)) = some []) ∧
    (recommendCareer calculateScore [Role.mk "A" ["x"]] [] (some []) =
      some (Response.status400 "Skills are required") ∧
    recommendCareer calculateScore [Role.mk "A" ["x"]] [] (some []) =
      recommendCareer (fun _ => 7) [] [Skill.mk "S" []] (some [])) :=
  ⟨Or.inr rfl,
    empty_skills_rejected calculateScore (fun _ => 7) [Role.mk "A" ["x"]] []
      [] [Skill.mk "S" []] (some []) (Or.inr rfl)⟩

/-- C8: the engine is deterministic — equal inputs (scoring function, Roles
table, Skills table, request body) produce equal responses. -/
theorem recommendCareer_deterministic (scoreFn scoreFn2 : Option Skill → Int)
    (roles roles2 : List Role) (skillsData skillsData2 : List Skill)
    (body body2 : Option (List String)) (hf : scoreFn = scoreFn2)
    (hr : roles = roles2) (hs : skillsData = skillsData2) (hb : body = body2) :
    recommendCareer scoreFn roles skillsData body =
      recommendCareer scoreFn2 roles2 skillsData2 body2 := by
  subst hf hr hs hb
  rfl

/-- Witness for C8 at a concrete input. -/
theorem recommendCareer_deterministic_witness :
    recommendCareer calculateScore [Role.mk "A" ["x"]] [Skill.mk "x" []] (some ["y"]) =
      recommendCareer calculateScore [Role.mk "A" ["x"]] [Skill.mk "x" []] (some ["y"]) :=
  recommendCareer_deterministic calculateScore calculateScore _ _ _ _ _ _ rfl rfl rfl rfl

/-! ## Lookup lemmas for the object-spread model -/

theorem lookup_cons_self (k : String) (v : JsVal) (o : JsObj) :
    ((k, v) :: o).lookup k = some v := by
  simp [List.lookup]

theorem lookup_cons_of_beq_false (k a : String) (v : JsVal) (o : JsObj)
    (h : (k == a) = false) : ((a, v) :: o).lookup k = o.lookup k := by
  simp [List.lookup, h]

theorem beq_false_symm (k a : String) (h : (a == k) = false) : (k == a) = false := by
  cases hk : k == a with
  | false => rfl
  | true =>
    have : k = a := by simpa using hk
    rw [this, beq_self_eq_true] at h
    cases h

theorem lookup_map_replace (o : JsObj) (k k2 : String) (v : JsVal) (h : k ≠ k2) :
    (o.map fun p => if p.1 == k2 then (k2, v) else p).lookup k = o.lookup k := by
  have hk2 : (k == k2) = false := by simp [h]
  induction o with
  | nil => rfl
  | cons p rest ih =>
    obtain ⟨a, w⟩ := p
    cases hbeq : a == k2 with
    | false =>
      rw [List.map_cons, show (if (a, w).1 == k2 then (k2, v) else (a, w)) = (a, w) by
        simp [hbeq]]
      cases hkp : k == a with
      | false => rw [lookup_cons_of_beq_false k a w _ hkp,
          lookup_cons_of_beq_false k a w rest hkp, ih]
      | true =>
        have : k = a := by simpa using hkp
        subst this
        rw [lookup_cons_self, lookup_cons_self]
    | true =>
      have h1 : a = k2 := by simpa using hbeq
      have hka : (k == a) = false := by rw [h1]; exact hk2
      rw [List.map_cons, show (if (a, w).1 == k2 then (k2, v) else (a, w)) = (k2, v) by
        simp [hbeq]]
      rw [lookup_cons_of_beq_false k k2 v _ hk2, lookup_cons_of_beq_false k a w rest hka, ih]

theorem lookup_append_single_ne (o : JsObj) (k k2 : String) (v : JsVal) (h : k ≠ k2) :
    (o ++ [(k2, v)]).lookup k = o.lookup k := by
  have hk2 : (k == k2) = false := by simp [h]
  induction o with
  | nil =>
    show ([(k2, v)] : JsObj).lookup k = none
    rw [lookup_cons_of_beq_false k k2 v [] hk2]
    rfl
  | cons p rest ih =>
    obtain ⟨a, w⟩ := p
    cases hkp : k == a with
    | false =>
      rw [List.cons_append, lookup_cons_of_beq_false k a w _ hkp,
        lookup_cons_of_beq_false k a w rest hkp, ih]
    | true =>
      have : k = a := by simpa using hkp
      subst this
      rw [List.cons_append, lookup_cons_self, lookup_cons_self]

theorem lookup_objInsert_ne (o : JsObj) (k k2 : String) (v : JsVal) (h : k ≠ k2) :
    (objInsert o k2 v).lookup k = o.lookup k := by
  rw [objInsert]
  split
  · exact lookup_map_replace o k k2 v h
  · exact lookup_append_single_ne o k k2 v h

theorem lookup_map_replace_self (o : JsObj) (k : String) (v : JsVal)
    (hany : o.any (fun p => p.1 == k) = true) :
    (o.map fun p => if p.1 == k then (k, v) else p).lookup k = some v := by
  induction o with
  | nil => simp at hany
  | cons p rest ih =>
    obtain ⟨a, w⟩ := p
    cases hbeq : a == k with
    | true =>
      rw [List.map_cons, show (if (a, w).1 == k then (k, v) else (a, w)) = (k, v) by
        simp [hbeq]]
      rw [lookup_cons_self]
    | false =>
      have hkp : (k == a) = false := beq_false_symm k a hbeq
      have hrest : rest.any (fun p => p.1 == k) = true := by
        simpa [List.any_cons, hbeq] using hany
      rw [List.map_cons, show (if (a, w).1 == k then (k, v) else (a, w)) = (a, w) by
        simp [hbeq]]
      rw [lookup_cons_of_beq_false k a w _ hkp, ih hrest]

theorem lookup_objInsert_self (o : JsObj) (k : String) (v : JsVal) :
    (objInsert o k v).lookup k = some v := by
  rw [objInsert]
  split
  · next hany => exact lookup_map_replace_self o k v hany
  · next hany =>
    induction o with
    | nil => exact lookup_cons_self k v []
    | cons p rest ih =>
      obtain ⟨a, w⟩ := p
      have hbeq : (a == k) = false := by
        cases hpk : a == k with
        | false => rfl
        | true => exact absurd (by simp [List.any_cons, hpk]) hany
      have hkp : (k == a) = false := beq_false_symm k a hbeq
      have hrest : ¬rest.any (fun p => p.1 == k) = true := by
        intro hc
        exact hany (by simp [List.any_cons, hc])
      rw [List.cons_append, lookup_cons_of_beq_false k a w _ hkp]
      exact ih hrest

theorem lookup_spreadInto_of_not_key (o : JsObj) (fields : JsObj) (k : String)
    (h : ∀ p ∈ fields, p.1 ≠ k) :
    (spreadInto o fields).lookup k = o.lookup k := by
  induction fields generalizing o with
  | nil => rfl
  | cons p rest ih =>
    show (spreadInto (objInsert o p.1 p.2) rest).lookup k = _
    rw [ih (objInsert o p.1 p.2) fun q hq => h q (List.mem_cons_of_mem p hq)]
    exact lookup_objInsert_ne o k p.1 p.2
      fun hk => h p (List.mem_cons_self p rest) hk.symm

theorem lookup_spreadInto_found (o : JsObj) (fields : JsObj) (k : String) (v : JsVal)
    (hnd : (fields.map Prod.fst).Nodup) (hv : fields.lookup k = some v) :
    (spreadInto o fields).lookup k = some v := by
  induction fields generalizing o with
  | nil => cases hv
  | cons p rest ih =>
    obtain ⟨a, w⟩ := p
    rw [List.map_cons, List.nodup_cons] at hnd
    obtain ⟨hnotin, hndrest⟩ := hnd
    show (spreadInto (objInsert o a w) rest).lookup k = some v
    by_cases hk : k = a
    · have hv' : w = v := by
        rw [hk, lookup_cons_self] at hv
        exact Option.some.inj hv
      rw [lookup_spreadInto_of_not_key (objInsert o a w) rest k ?hpn]
      · rw [hk, lookup_objInsert_self, hv']
      case hpn =>
        intro q hq hqk
        apply hnotin
        have hmemq : q.1 ∈ List.map Prod.fst rest := List.mem_map_of_mem Prod.fst hq
        rw [hqk, hk] at hmemq
        exact hmemq
    · have hbeq : (k == a) = false := by simp [hk]
      rw [lookup_cons_of_beq_false k a w rest hbeq] at hv
      exact ih (objInsert o a w) hndrest hv

theorem lookup_fields_map_n (fs : List (String × Int)) (k : String) :
    ((fs.map fun p => (p.1, JsVal.n p.2)).lookup k) = (fs.lookup k).map JsVal.n := by
  induction fs with
  | nil => rfl
  | cons p rest ih =>
    by_cases hk : k = p.1
    · have : (k == p.1) = true := by simp [hk]
      simp [List.lookup, this]
    · have : (k == p.1) = false := by simp [hk]
      simp [List.lookup, this, ih]

/-- C6: a required skill with no Skills-table row does not abort the
request. The engine still answers 200; for such a skill the lookup yields
`none`, the scoring function is applied to the absent metadata, and the
resulting `{ skill, score }` entry (with no spread fields) carries exactly
the default score, appearing among the role's missing skills whenever the
skill is required and not already known. -/
theorem unknown_skill_metadata_tolerated (roles : List Role)
    (skillsData : List Skill) (userSkills : List String) (skill : String)
    (hus : userSkills ≠ []) (hroles : roles ≠ [])
    (hmiss : skillsData.find? (fun s => s.name == skill) = none) :
    (∃ res, recommendCareer calculateScore roles skillsData (some userSkills) =
        some (Response.status200 res)) ∧
    scoreOf (mkEntry skill (calculateScore none) none) = calculateScore none ∧
    ∀ target : Role, skill ∈ target.requiredSkills → skill ∉ userSkills →
      mkEntry skill (calculateScore none) none ∈
        missingSkills calculateScore userSkills skillsData target := by
  refine ⟨?_, ?_, ?_⟩
  · obtain ⟨m, target, hm, ht, hrun⟩ :=
      recommendCareer_success calculateScore roles skillsData userSkills hus hroles
    exact ⟨_, hrun⟩
  · rfl
  · intro target hreq hnot
    rw [missingSkills]
    apply List.mem_map.mpr
    refine ⟨skill, ?_, ?_⟩
    · rw [List.mem_filter]
      refine ⟨hreq, ?_⟩
      have helem : userSkills.elem skill = false := by
        cases hc : userSkills.elem skill
        · rfl
        · exact absurd (List.elem_iff.mp hc) hnot
      show (!userSkills.contains skill) = true
      have : userSkills.contains skill = false := helem
      rw [this]
      rfl
    · show mkEntry skill
          (calculateScore (skillsData.find? fun s => s.name == skill))
          (skillsData.find? fun s => s.name == skill) = _
      rw [hmiss]

/-- Witness for C6: one unknown required skill, one known skill. -/
theorem unknown_skill_metadata_tolerated_witness :
    (["Node"] : List String) ≠ [] ∧
    ([Role.mk "Backend" ["Node", "Rust"]] : List Role) ≠ [] ∧
    List.find? (fun s => s.name == "Rust") [Skill.mk "SQL" [("demand", 9)]] = none ∧
    ((∃ res, recommendCareer calculateScore [Role.mk "Backend" ["Node", "Rust"]]
        [Skill.mk "SQL" [("demand", 9)]] (some ["Node"]) =
        some (Response.status200 res)) ∧
    scoreOf (mkEntry "Rust" (calculateScore none) none) = calculateScore none ∧
    ∀ target : Role, "Rust" ∈ target.requiredSkills → "Rust" ∉ (["Node"] : List String) →
      mkEntry "Rust" (calculateScore none) none ∈
        missingSkills calculateScore ["Node"] [Skill.mk "SQL" [("demand", 9)]] target) :=
  ⟨by decide, by decide, by decide,
    unknown_skill_metadata_tolerated [Role.mk "Backend" ["Node", "Rust"]]
      [Skill.mk "SQL" [("demand", 9)]] ["Node"] "Rust"
      (by decide) (by decide) (by decide)⟩

/-- C10: because `...skillInfo` is spread after the computed fields, a
Skills-table row with distinct keys containing a field named `score` (or
`skill`) overwrites the computed score (or skill name) in the result entry;
`scoreOf` — the exact value the ranking comparator `b.score - a.score`
reads, and the key `recommendCareer` sorts recommendations by — then
returns the metadata value instead of the scoring function's output. -/
theorem spread_overwrites_computed_fields (skill : String) (score v : Int)
    (sk : Skill)
    (hnd : ((skillFields (some sk)).map Prod.fst).Nodup)
    (hv : sk.fields.lookup "score" = some v) :
    scoreOf (mkEntry skill score (some sk)) = v ∧
    (mkEntry skill score (some sk)).lookup "score" = some (JsVal.n v) ∧
    (∀ w : Int, sk.fields.lookup "skill" = some w →
      (mkEntry skill score (some sk)).lookup "skill" = some (JsVal.n w)) := by
  have hlook : ∀ (k : String) (u : Int), k ≠ "name" → sk.fields.lookup k = some u →
      (mkEntry skill score (some sk)).lookup k = some (JsVal.n u) := by
    intro k u hkname hku
    rw [mkEntry]
    apply lookup_spreadInto_found _ _ _ _ hnd
    show ((("name", JsVal.s sk.name) :: sk.fields.map fun p => (p.1, JsVal.n p.2)).lookup k) = _
    rw [lookup_cons_of_beq_false k "name" (JsVal.s sk.name) _ (by simp [hkname]),
      lookup_fields_map_n, hku]
    rfl
  have hscore := hlook "score" v (by decide) hv
  refine ⟨?_, hscore, fun w hw => hlook "skill" w (by decide) hw⟩
  rw [scoreOf, hscore]

/-- Witness for C10: metadata `{name:"A", demand:9, score:1, skill:42}`
overrides the computed score 9 with 1 and the skill name with 42. -/
theorem spread_overwrites_computed_fields_witness :
    ((skillFields (some (Skill.mk "A" [("demand", 9), ("score", 1), ("skill", 42)]))).map
      Prod.fst).Nodup ∧
    (Skill.mk "A" [("demand", 9), ("score", 1), ("skill", 42)]).fields.lookup "score" =
      some 1 ∧
    (scoreOf (mkEntry "A" 9 (some (Skill.mk "A" [("demand", 9), ("score", 1), ("skill", 42)]))) = 1 ∧
    (mkEntry "A" 9 (some (Skill.mk "A" [("demand", 9), ("score", 1), ("skill", 42)]))).lookup "score" =
      some (JsVal.n 1) ∧
    (∀ w : Int,
      (Skill.mk "A" [("demand", 9), ("score", 1), ("skill", 42)]).fields.lookup "skill" = some w →
      (mkEntry "A" 9 (some (Skill.mk "A" [("demand", 9), ("score", 1), ("skill", 42)]))).lookup "skill" =
        some (JsVal.n w))) :=
  ⟨by decide, by decide,
    spread_overwrites_computed_fields "A" 9 1
      (Skill.mk "A" [("demand", 9), ("score", 1), ("skill", 42)])
      (by decide) (by decide)⟩

/-- C9: running the handler on a heap holding the Roles table at address 0
and the Skills table at address 1 leaves both table cells unchanged — the
in-place sorts only ever hit freshly allocated per-request arrays — and the
heap run returns exactly the response of the pure model. -/
theorem tables_unchanged_by_request (scoreFn : Option Skill → Int)
    (roles : List Role) (skillsData : List Skill) (body : Option (List String)) :
    (recommendCareerHeap scoreFn body [Cell.roleA roles, Cell.skillA skillsData]).2[0]? =
      some (Cell.roleA roles) ∧
    (recommendCareerHeap scoreFn body [Cell.roleA roles, Cell.skillA skillsData]).2[1]? =
      some (Cell.skillA skillsData) ∧
    (recommendCareerHeap scoreFn body [Cell.roleA roles, Cell.skillA skillsData]).1 =
      recommendCareer scoreFn roles skillsData body := by
  rcases body with - | us
  · exact ⟨rfl, rfl, rfl⟩
  rcases us with - | ⟨u, us⟩
  · exact ⟨rfl, rfl, rfl⟩
  simp only [recommendCareerHeap, recommendCareer, Option.getD_some, alloc,
    readRoleA, readSkillA, readMatchA, readStrA, readObjA, sortedMatches, missingSkills]
  cases hhd : (sortDescBy matchKey (matchRecs (u :: us) roles)).head? with
  | none => simp [hhd]
  | some m =>
    cases hfd : roles.find? fun r => r.role == m.role with
    | none => simp [hhd, hfd]
    | some target => simp [hhd, hfd]

/-! ## Correctness of the binary64 model

The analysis is in ℚ: `rnEven` is within half a unit of the exact
quotient, `flRat`/`flDy` have relative error at most `2^-53`, `jsRound`
is within half a unit with ties toward +∞, and the half-integer margin of
a non-tie exact percentage beats the accumulated error for every
JavaScript-size table. -/

theorem rnEven_core (num den : Nat) (hden : den ≠ 0) :
    |(rnEven num den : ℚ) * den - num| ≤ (den : ℚ) / 2 := by
  have hdpos : (0 : ℚ) < den := by
    exact_mod_cast Nat.pos_of_ne_zero hden
  have hq := Nat.div_add_mod num den
  have hnum : (num : ℚ) = (den : ℚ) * (num / den : Nat) + ((num % den : Nat) : ℚ) := by
    exact_mod_cast hq.symm
  have hrlt : ((num % den : Nat) : ℚ) < den := by
    exact_mod_cast Nat.mod_lt _ (Nat.pos_of_ne_zero hden)
  have hrnn : (0 : ℚ) ≤ ((num % den : Nat) : ℚ) := by positivity
  rw [rnEven]
  split
  · next hlt =>
    have h2r : 2 * ((num % den : Nat) : ℚ) < den := by exact_mod_cast hlt
    rw [hnum, abs_le]
    constructor <;> nlinarith
  · split
    · next hgt =>
      have h2r : (den : ℚ) < 2 * ((num % den : Nat) : ℚ) := by exact_mod_cast hgt
      push_cast
      rw [hnum, abs_le]
      constructor <;> nlinarith
    · next h1 h2 =>
      have hle : ¬2 * (num % den) < den := h1
      have hge : ¬den < 2 * (num % den) := h2
      have heq : 2 * ((num % den : Nat) : ℚ) = den := by
        exact_mod_cast le_antisymm (le_of_not_lt hge) (le_of_not_lt hle)
      split
      · rw [hnum, abs_le]
        constructor <;> nlinarith
      · push_cast
        rw [hnum, abs_le]
        constructor <;> nlinarith

theorem rnEven_spec (num den : Nat) (hden : den ≠ 0) :
    |(rnEven num den : ℚ) - (num : ℚ) / den| ≤ 1 / 2 := by
  have hdpos : (0 : ℚ) < den := by
    exact_mod_cast Nat.pos_of_ne_zero hden
  have hrw : (rnEven num den : ℚ) - (num : ℚ) / den =
      ((rnEven num den : ℚ) * den - num) / den := by
    field_simp
  rw [hrw, abs_div, abs_of_pos hdpos, div_le_iff₀ hdpos]
  have := rnEven_core num den hden
  linarith

theorem toRat_nonneg (d : Dyadic) : 0 ≤ d.toRat := by
  rw [Dyadic.toRat]
  positivity

theorem toRat_scale100 (m : Nat) (e : Int) :
    (Dyadic.mk (m * 100) e).toRat = 100 * (Dyadic.mk m e).toRat := by
  rw [Dyadic.toRat, Dyadic.toRat]
  push_cast
  ring

theorem log2F_spec : ∀ (fuel n : Nat), n ≤ fuel → n ≠ 0 →
    2 ^ log2F fuel n ≤ n ∧ n < 2 ^ (log2F fuel n + 1) := by
  intro fuel
  induction fuel with
  | zero => intro n hn h0; omega
  | succ fuel ih =>
    intro n hn h0
    rw [log2F]
    split
    · next h2 =>
      have hm0 : n / 2 ≠ 0 := by omega
      have hmf : n / 2 ≤ fuel := by omega
      obtain ⟨ih1, ih2⟩ := ih (n / 2) hmf hm0
      constructor
      · rw [pow_succ]
        calc 2 ^ log2F fuel (n / 2) * 2 ≤ n / 2 * 2 := Nat.mul_le_mul_right 2 ih1
          _ ≤ n := by omega
      · rw [pow_succ]
        calc n < (n / 2 + 1) * 2 := by omega
          _ ≤ 2 ^ (log2F fuel (n / 2) + 1) * 2 := Nat.mul_le_mul_right 2 (by omega)
    · next h2 =>
      have hn1 : n = 1 := by omega
      subst hn1
      constructor <;> norm_num

theorem log2N_le (n : Nat) (h : n ≠ 0) : 2 ^ log2N n ≤ n :=
  (log2F_spec n n le_rfl h).1

theorem log2N_lt (n : Nat) (h : n ≠ 0) : n < 2 ^ (log2N n + 1) :=
  (log2F_spec n n le_rfl h).2

theorem pow2le_iff (k : Int) (a b : Nat) (hb : b ≠ 0) :
    pow2le k a b = true ↔ (2 : ℚ) ^ k ≤ (a : ℚ) / b := by
  have hbpos : (0 : ℚ) < b := by exact_mod_cast Nat.pos_of_ne_zero hb
  rw [pow2le]
  split
  · next hk =>
    rw [decide_eq_true_eq, le_div_iff₀ hbpos]
    rw [show (2 : ℚ) ^ k * b = ((b * 2 ^ k.toNat : Nat) : ℚ) by
      rw [Nat.cast_mul, Nat.cast_pow, Nat.cast_ofNat, ← zpow_natCast (2 : ℚ) k.toNat,
        Int.toNat_of_nonneg hk]
      ring]
    exact Nat.cast_le.symm
  · next hk =>
    have hkneg : -k ≥ 0 := by omega
    rw [decide_eq_true_eq, le_div_iff₀ hbpos]
    have hpow : ((2 : ℚ) ^ ((-k).toNat : ℕ)) = (2 : ℚ) ^ (-k : Int) := by
      rw [← zpow_natCast (2 : ℚ) (-k).toNat, Int.toNat_of_nonneg hkneg]
    have h2k : (0 : ℚ) < (2 : ℚ) ^ k := zpow_pos (by norm_num) k
    have hmul : (2 : ℚ) ^ k * (2 : ℚ) ^ (-k : Int) = 1 := by
      rw [← zpow_add₀ (two_ne_zero) k (-k)]
      simp
    constructor
    · intro h
      have h' : (b : ℚ) ≤ (a : ℚ) * (2 : ℚ) ^ (-k : Int) := by
        rw [← hpow]
        exact_mod_cast h
      have := mul_le_mul_of_nonneg_left h' (le_of_lt h2k)
      calc (2 : ℚ) ^ k * b ≤ (2 : ℚ) ^ k * ((a : ℚ) * (2 : ℚ) ^ (-k : Int)) := this
        _ = (a : ℚ) * ((2 : ℚ) ^ k * (2 : ℚ) ^ (-k : Int)) := by ring
        _ = a := by rw [hmul, mul_one]
    · intro h
      have hstep := mul_le_mul_of_nonneg_right h
        (le_of_lt (zpow_pos (a := (2 : ℚ)) (by norm_num) (-k)))
      have h' : (b : ℚ) ≤ (a : ℚ) * (2 : ℚ) ^ (-k : Int) := by
        calc (b : ℚ) = (b : ℚ) * ((2 : ℚ) ^ k * (2 : ℚ) ^ (-k : Int)) := by
              rw [hmul, mul_one]
          _ = (2 : ℚ) ^ k * (b : ℚ) * (2 : ℚ) ^ (-k : Int) := by ring
          _ ≤ (a : ℚ) * (2 : ℚ) ^ (-k : Int) := hstep
      rw [← hpow] at h'
      exact_mod_cast h'

theorem ilog2_spec (a b : Nat) (ha : a ≠ 0) (hb : b ≠ 0) :
    (2 : ℚ) ^ ilog2 a b ≤ (a : ℚ) / b ∧ (a : ℚ) / b < (2 : ℚ) ^ (ilog2 a b + 1) := by
  have hbpos : (0 : ℚ) < b := by exact_mod_cast Nat.pos_of_ne_zero hb
  have hla : (2 : ℚ) ^ (log2N a : Int) ≤ a := by
    have h : (2 : Nat) ^ log2N a ≤ a := log2N_le a ha
    rw [zpow_natCast]
    exact_mod_cast h
  have hua : (a : ℚ) < (2 : ℚ) ^ ((log2N a : Int) + 1) := by
    have h : a < (2 : Nat) ^ (log2N a + 1) := log2N_lt a ha
    rw [show ((log2N a : Int) + 1) = ((log2N a + 1 : Nat) : Int) by push_cast; ring,
      zpow_natCast]
    exact_mod_cast h
  have hlb : (2 : ℚ) ^ (log2N b : Int) ≤ b := by
    have h : (2 : Nat) ^ log2N b ≤ b := log2N_le b hb
    rw [zpow_natCast]
    exact_mod_cast h
  have hub : (b : ℚ) < (2 : ℚ) ^ ((log2N b : Int) + 1) := by
    have h : b < (2 : Nat) ^ (log2N b + 1) := log2N_lt b hb
    rw [show ((log2N b : Int) + 1) = ((log2N b + 1 : Nat) : Int) by push_cast; ring,
      zpow_natCast]
    exact_mod_cast h
  have hup : (a : ℚ) / b < (2 : ℚ) ^ (((log2N a : Int) - (log2N b : Int)) + 1) := by
    rw [div_lt_iff₀ hbpos]
    calc (a : ℚ) < (2 : ℚ) ^ ((log2N a : Int) + 1) := hua
      _ = (2 : ℚ) ^ (((log2N a : Int) - (log2N b : Int)) + 1) * (2 : ℚ) ^ (log2N b : Int) := by
          rw [← zpow_add₀ (two_ne_zero)]
          congr 1
          ring
      _ ≤ (2 : ℚ) ^ (((log2N a : Int) - (log2N b : Int)) + 1) * b := by
          apply mul_le_mul_of_nonneg_left hlb
          positivity
  have hlo : (2 : ℚ) ^ (((log2N a : Int) - (log2N b : Int)) - 1) < (a : ℚ) / b := by
    rw [lt_div_iff₀ hbpos]
    calc (2 : ℚ) ^ (((log2N a : Int) - (log2N b : Int)) - 1) * b
        < (2 : ℚ) ^ (((log2N a : Int) - (log2N b : Int)) - 1) *
            (2 : ℚ) ^ ((log2N b : Int) + 1) := by
          apply mul_lt_mul_of_pos_left hub
          positivity
      _ = (2 : ℚ) ^ (log2N a : Int) := by
          rw [← zpow_add₀ (two_ne_zero)]
          congr 1
          ring
      _ ≤ a := hla
  rw [ilog2]
  split
  · next hple => exact ⟨(pow2le_iff _ a b hb).mp hple, hup⟩
  · next hple =>
    refine ⟨le_of_lt hlo, ?_⟩
    rw [show ((log2N a : Int) - (log2N b : Int)) - 1 + 1 =
      (log2N a : Int) - (log2N b : Int) by ring]
    by_contra hc
    push_neg at hc
    exact hple ((pow2le_iff _ a b hb).mpr hc)

theorem two_pow_cast (E : Nat) : ((2 ^ E : Nat) : ℚ) = (2 : ℚ) ^ (E : Int) := by
  rw [Nat.cast_pow, Nat.cast_ofNat, ← zpow_natCast (2 : ℚ) E]

theorem fl_err_core (n scaled : ℚ) (e : Int) (x : ℚ) (k : Int)
    (hscaled : scaled = x * (2 : ℚ) ^ (-e)) (hn : |n - scaled| ≤ 1 / 2)
    (hke : e = k - 52) (hx : (2 : ℚ) ^ k ≤ x) :
    |n * (2 : ℚ) ^ e - x| ≤ x * (2 : ℚ) ^ (-53 : Int) := by
  have h2e : (0 : ℚ) < (2 : ℚ) ^ e := zpow_pos (by norm_num) e
  have hxe : scaled * (2 : ℚ) ^ e = x := by
    rw [hscaled, mul_assoc, ← zpow_add₀ (two_ne_zero) (-e) e]
    simp
  have hdiff : n * (2 : ℚ) ^ e - x = (n - scaled) * (2 : ℚ) ^ e := by
    rw [sub_mul, hxe]
  rw [hdiff, abs_mul, abs_of_pos h2e]
  calc |n - scaled| * (2 : ℚ) ^ e ≤ 1 / 2 * (2 : ℚ) ^ e :=
        mul_le_mul_of_nonneg_right hn (le_of_lt h2e)
    _ = (2 : ℚ) ^ (e - 1) := by
        rw [zpow_sub₀ (two_ne_zero), zpow_one]
        ring
    _ = (2 : ℚ) ^ k * (2 : ℚ) ^ (-53 : Int) := by
        rw [← zpow_add₀ (two_ne_zero)]
        congr 1
        omega
    _ ≤ x * (2 : ℚ) ^ (-53 : Int) :=
        mul_le_mul_of_nonneg_right hx (by positivity)

theorem flRat_zero_m (b : Nat) : (flRat 0 b).toRat = 0 := by
  rw [flRat, if_pos rfl, Dyadic.toRat]
  simp

theorem flRat_err (a b : Nat) (ha : a ≠ 0) (hb : b ≠ 0) :
    |(flRat a b).toRat - (a : ℚ) / b| ≤ ((a : ℚ) / b) * (2 : ℚ) ^ (-53 : Int) := by
  have hbpos : (0 : ℚ) < b := by exact_mod_cast Nat.pos_of_ne_zero hb
  obtain ⟨hlo, hup⟩ := ilog2_spec a b ha hb
  rw [flRat, if_neg ha]
  split
  · next he =>
    have hd : b * 2 ^ (ilog2 a b - 52).toNat ≠ 0 :=
      Nat.mul_ne_zero hb (pow_ne_zero _ (by norm_num))
    have hspec := rnEven_spec a (b * 2 ^ (ilog2 a b - 52).toNat) hd
    rw [Dyadic.toRat]
    refine fl_err_core _ ((a : ℚ) / ((b * 2 ^ (ilog2 a b - 52).toNat : Nat) : ℚ))
      _ _ (ilog2 a b) ?_ hspec (by ring) hlo
    rw [Nat.cast_mul, Nat.cast_pow, Nat.cast_ofNat,
      ← zpow_natCast (2 : ℚ) (ilog2 a b - 52).toNat, Int.toNat_of_nonneg he,
      ← div_div, div_eq_mul_inv ((a : ℚ) / b), ← zpow_neg]
  · next he =>
    have hspec := rnEven_spec (a * 2 ^ (-(ilog2 a b - 52)).toNat) b hb
    rw [Dyadic.toRat]
    refine fl_err_core _ (((a * 2 ^ (-(ilog2 a b - 52)).toNat : Nat) : ℚ) / b)
      _ _ (ilog2 a b) ?_ hspec (by ring) hlo
    rw [Nat.cast_mul, Nat.cast_pow, Nat.cast_ofNat,
      ← zpow_natCast (2 : ℚ) (-(ilog2 a b - 52)).toNat, Int.toNat_of_nonneg (by omega)]
    rw [mul_comm (a : ℚ), mul_div_assoc]
    ring

theorem flDy_err (d : Dyadic) :
    |(flDy d).toRat - d.toRat| ≤ d.toRat * (2 : ℚ) ^ (-53 : Int) := by
  rw [flDy]
  split
  · next h =>
    rw [sub_self, abs_zero]
    have := toRat_nonneg d
    positivity
  · next h =>
    have hm : 2 ^ 53 ≤ d.m := le_of_not_lt h
    have hpow : (0 : ℕ) < 2 ^ 53 := by positivity
    have hmne : d.m ≠ 0 := by omega
    have hlog : 53 ≤ log2N d.m := by
      have h1 : (2 : ℕ) ^ 53 < 2 ^ (log2N d.m + 1) := lt_of_le_of_lt hm (log2N_lt d.m hmne)
      have h2 := (Nat.pow_lt_pow_iff_right (by norm_num : 1 < 2)).mp h1
      omega
    have hspec := rnEven_spec d.m (2 ^ (log2N d.m - 52)) (pow_ne_zero _ (by norm_num))
    rw [Dyadic.toRat, Dyadic.toRat]
    refine fl_err_core _ ((d.m : ℚ) / ((2 ^ (log2N d.m - 52) : Nat) : ℚ))
      _ _ (d.e + (log2N d.m - 52 : Nat) + 52) ?_ hspec (by ring) ?_
    · calc (d.m : ℚ) / ((2 ^ (log2N d.m - 52) : Nat) : ℚ)
          = (d.m : ℚ) * (2 : ℚ) ^ (-((log2N d.m - 52 : Nat) : Int)) := by
            rw [two_pow_cast, div_eq_mul_inv, ← zpow_neg]
        _ = (d.m : ℚ) * (2 : ℚ) ^ d.e *
              (2 : ℚ) ^ (-(d.e + ((log2N d.m - 52 : Nat) : Int))) := by
            rw [mul_assoc, ← zpow_add₀ (two_ne_zero)]
            congr 2
            omega
    · have hm2 : ((2 : ℚ) ^ (log2N d.m : Int)) ≤ (d.m : ℚ) := by
        rw [zpow_natCast]
        exact_mod_cast log2N_le d.m hmne
      calc (2 : ℚ) ^ (d.e + ((log2N d.m - 52 : Nat) : Int) + 52)
          = (2 : ℚ) ^ (log2N d.m : Int) * (2 : ℚ) ^ d.e := by
            rw [← zpow_add₀ (two_ne_zero)]
            congr 1
            omega
        _ ≤ (d.m : ℚ) * (2 : ℚ) ^ d.e :=
            mul_le_mul_of_nonneg_right hm2 (by positivity)

theorem jsRound_bounds (d : Dyadic) :
    d.toRat - 1 / 2 < (jsRound d : ℚ) ∧ (jsRound d : ℚ) ≤ d.toRat + 1 / 2 := by
  rw [jsRound]
  split
  · next he =>
    have hint : ((d.m * 2 ^ d.e.toNat : Nat) : ℚ) = d.toRat := by
      rw [Dyadic.toRat, Nat.cast_mul, Nat.cast_pow, Nat.cast_ofNat,
        ← zpow_natCast (2 : ℚ) d.e.toNat, Int.toNat_of_nonneg he]
    rw [hint]
    constructor <;> linarith
  · next he =>
    have hepos : (0 : Int) ≤ -d.e := by omega
    have hppos : 0 < 2 ^ (-d.e).toNat := by positivity
    have hppQ : (0 : ℚ) < ((2 ^ (-d.e).toNat : Nat) : ℚ) := by exact_mod_cast hppos
    have hq := Nat.div_add_mod d.m (2 ^ (-d.e).toNat)
    have hm : (d.m : ℚ) = ((2 ^ (-d.e).toNat : Nat) : ℚ) * (d.m / 2 ^ (-d.e).toNat : Nat) +
        ((d.m % 2 ^ (-d.e).toNat : Nat) : ℚ) := by
      exact_mod_cast hq.symm
    have hrlt : ((d.m % 2 ^ (-d.e).toNat : Nat) : ℚ) < ((2 ^ (-d.e).toNat : Nat) : ℚ) := by
      exact_mod_cast Nat.mod_lt _ hppos
    have hrnn : (0 : ℚ) ≤ ((d.m % 2 ^ (-d.e).toNat : Nat) : ℚ) := by positivity
    have hval : d.toRat = (d.m : ℚ) / ((2 ^ (-d.e).toNat : Nat) : ℚ) := by
      rw [Dyadic.toRat]
      have h2p : ((2 ^ (-d.e).toNat : Nat) : ℚ) = (2 : ℚ) ^ (-d.e) := by
        rw [Nat.cast_pow, Nat.cast_ofNat, ← zpow_natCast (2 : ℚ) (-d.e).toNat,
          Int.toNat_of_nonneg hepos]
      rw [h2p, show (2 : ℚ) ^ d.e = ((2 : ℚ) ^ (-d.e))⁻¹ by
        rw [← zpow_neg, neg_neg], div_eq_mul_inv]
    have hvq : d.toRat = ((d.m / 2 ^ (-d.e).toNat : Nat) : ℚ) +
        ((d.m % 2 ^ (-d.e).toNat : Nat) : ℚ) / ((2 ^ (-d.e).toNat : Nat) : ℚ) := by
      rw [hval, hm]
      field_simp
      ring
    split
    · next hge =>
      have h2r : ((2 ^ (-d.e).toNat : Nat) : ℚ) ≤
          2 * ((d.m % 2 ^ (-d.e).toNat : Nat) : ℚ) := by exact_mod_cast hge
      have hd1 : ((d.m % 2 ^ (-d.e).toNat : Nat) : ℚ) / ((2 ^ (-d.e).toNat : Nat) : ℚ) < 1 := by
        rw [div_lt_one hppQ]
        exact hrlt
      have hd2 : (1 : ℚ) / 2 ≤
          ((d.m % 2 ^ (-d.e).toNat : Nat) : ℚ) / ((2 ^ (-d.e).toNat : Nat) : ℚ) := by
        rw [le_div_iff₀ hppQ]
        linarith
      rw [hvq, Nat.cast_add, Nat.cast_one]
      constructor <;> linarith
    · next hlt =>
      have h2r : 2 * ((d.m % 2 ^ (-d.e).toNat : Nat) : ℚ) <
          ((2 ^ (-d.e).toNat : Nat) : ℚ) := by
        exact_mod_cast lt_of_not_ge hlt
      have hd2 : ((d.m % 2 ^ (-d.e).toNat : Nat) : ℚ) / ((2 ^ (-d.e).toNat : Nat) : ℚ) < 1 / 2 := by
        rw [div_lt_iff₀ hppQ]
        linarith
      have hd0 : (0 : ℚ) ≤ ((d.m % 2 ^ (-d.e).toNat : Nat) : ℚ) / ((2 ^ (-d.e).toNat : Nat) : ℚ) := by
        positivity
      rw [hvq]
      constructor <;> linarith

theorem u53_eq : (2 : ℚ) ^ (-53 : Int) = ((2 : ℚ) ^ (53 : Nat))⁻¹ := by
  rw [zpow_neg]
  congr 1
  rw [← zpow_natCast (2 : ℚ) 53]
  norm_num

theorem matchPercentage_err (m t : Nat) (ht : t ≠ 0) (hmt : m ≤ t) (hm0 : m ≠ 0) :
    |((mul100 (flRat m t)).toRat) - 100 * ((m : ℚ) / t)| < ((2 : ℚ) ^ (45 : Nat))⁻¹ := by
  have htpos : (0 : ℚ) < t := by exact_mod_cast Nat.pos_of_ne_zero ht
  have hx0 : (0 : ℚ) < (m : ℚ) / t := by
    apply div_pos _ htpos
    exact_mod_cast Nat.pos_of_ne_zero hm0
  have hx1 : (m : ℚ) / t ≤ 1 := by
    rw [div_le_one htpos]
    exact_mod_cast hmt
  have hupos : (0 : ℚ) < (2 : ℚ) ^ (-53 : Int) := zpow_pos (by norm_num) _
  have e1 := flRat_err m t hm0 ht
  have hP : (Dyadic.mk ((flRat m t).m * 100) ((flRat m t).e)).toRat =
      100 * (flRat m t).toRat := toRat_scale100 _ _
  have e2 := flDy_err (Dyadic.mk ((flRat m t).m * 100) ((flRat m t).e))
  rw [hP] at e2
  have hyd : (mul100 (flRat m t)).toRat =
      (flDy (Dyadic.mk ((flRat m t).m * 100) ((flRat m t).e))).toRat := rfl
  rw [hyd]
  have hxhat0 : (0 : ℚ) ≤ (flRat m t).toRat := toRat_nonneg _
  have hxhatle : (flRat m t).toRat ≤ (m : ℚ) / t + ((m : ℚ) / t) * (2 : ℚ) ^ (-53 : Int) := by
    have := abs_le.mp e1
    linarith [this.2]
  have habs1 : |100 * (flRat m t).toRat - 100 * ((m : ℚ) / t)| =
      100 * |(flRat m t).toRat - (m : ℚ) / t| := by
    rw [show 100 * (flRat m t).toRat - 100 * ((m : ℚ) / t) =
      100 * ((flRat m t).toRat - (m : ℚ) / t) by ring, abs_mul]
    norm_num
  have htri := abs_sub_le
    ((flDy (Dyadic.mk ((flRat m t).m * 100) ((flRat m t).e))).toRat)
    (100 * (flRat m t).toRat) (100 * ((m : ℚ) / t))
  have hbound : |(flDy (Dyadic.mk ((flRat m t).m * 100) ((flRat m t).e))).toRat -
      100 * ((m : ℚ) / t)| ≤
      100 * ((m : ℚ) / t) * (2 : ℚ) ^ (-53 : Int) * (2 + (2 : ℚ) ^ (-53 : Int)) := by
    have h1 : 100 * (flRat m t).toRat * (2 : ℚ) ^ (-53 : Int) ≤
        100 * ((m : ℚ) / t + ((m : ℚ) / t) * (2 : ℚ) ^ (-53 : Int)) * (2 : ℚ) ^ (-53 : Int) := by
      apply mul_le_mul_of_nonneg_right _ (le_of_lt hupos)
      linarith
    rw [habs1] at htri
    calc |(flDy (Dyadic.mk ((flRat m t).m * 100) ((flRat m t).e))).toRat -
        100 * ((m : ℚ) / t)|
        ≤ |(flDy (Dyadic.mk ((flRat m t).m * 100) ((flRat m t).e))).toRat -
            100 * (flRat m t).toRat| + 100 * |(flRat m t).toRat - (m : ℚ) / t| := htri
      _ ≤ 100 * (flRat m t).toRat * (2 : ℚ) ^ (-53 : Int) +
            100 * (((m : ℚ) / t) * (2 : ℚ) ^ (-53 : Int)) := by
          have he1 : |(flRat m t).toRat - (m : ℚ) / t| ≤
              ((m : ℚ) / t) * (2 : ℚ) ^ (-53 : Int) := e1
          exact add_le_add e2 (mul_le_mul_of_nonneg_left he1 (by norm_num))
      _ ≤ 100 * ((m : ℚ) / t + ((m : ℚ) / t) * (2 : ℚ) ^ (-53 : Int)) * (2 : ℚ) ^ (-53 : Int) +
            100 * (((m : ℚ) / t) * (2 : ℚ) ^ (-53 : Int)) := by
          linarith [h1]
      _ = 100 * ((m : ℚ) / t) * (2 : ℚ) ^ (-53 : Int) * (2 + (2 : ℚ) ^ (-53 : Int)) := by
          ring
  apply lt_of_le_of_lt hbound
  have hfin : 100 * ((m : ℚ) / t) * (2 : ℚ) ^ (-53 : Int) * (2 + (2 : ℚ) ^ (-53 : Int)) ≤
      100 * (2 : ℚ) ^ (-53 : Int) * (2 + (2 : ℚ) ^ (-53 : Int)) := by
    have hfac : (0 : ℚ) ≤ (2 : ℚ) ^ (-53 : Int) * (2 + (2 : ℚ) ^ (-53 : Int)) := by positivity
    nlinarith [hx1, hfac, hx0]
  apply lt_of_le_of_lt hfin
  rw [u53_eq]
  norm_num

theorem matchPercentage_le_100 (m t : Nat) (ht : t ≠ 0) (hmt : m ≤ t) :
    matchPercentage m t ≤ 100 := by
  rcases Nat.eq_zero_or_pos m with rfl | hmpos
  · have h0 : matchPercentage 0 t = 0 := rfl
    omega
  · have htpos : (0 : ℚ) < t := by exact_mod_cast Nat.pos_of_ne_zero ht
    have herr := matchPercentage_err m t ht hmt (by omega)
    have hjb := jsRound_bounds (mul100 (flRat m t))
    have hv : 100 * ((m : ℚ) / t) ≤ 100 := by
      have h1 : (m : ℚ) / t ≤ 1 := by
        rw [div_le_one htpos]
        exact_mod_cast hmt
      linarith
    have habs := abs_lt.mp herr
    have heps : ((2 : ℚ) ^ (45 : Nat))⁻¹ ≤ 1 / 2 := by norm_num
    have hJ : ((matchPercentage m t : Nat) : ℚ) < 101 := by
      rw [matchPercentage]
      linarith [hjb.2, habs.2]
    have hJn : matchPercentage m t < 101 := by exact_mod_cast hJ
    omega

theorem matchPercentage_eq_spec (m t : Nat) (ht : t ≠ 0) (hmt : m ≤ t)
    (htb : t ≤ 2 ^ 44) (hnot : ¬(2 * t ∣ 200 * m + t)) :
    matchPercentage m t = specPercentage m t := by
  rcases Nat.eq_zero_or_pos m with rfl | hmpos
  · have h0 : matchPercentage 0 t = 0 := rfl
    have hs : specPercentage 0 t = 0 := by
      rw [specPercentage]
      exact Nat.div_eq_of_lt (by omega)
    rw [h0, hs]
  · have htpos : (0 : ℚ) < t := by exact_mod_cast Nat.pos_of_ne_zero ht
    have h2t : (0 : ℚ) < 2 * (t : ℚ) := by positivity
    have herr := matchPercentage_err m t ht hmt (by omega)
    have hjb := jsRound_bounds (mul100 (flRat m t))
    have hdm := Nat.div_add_mod (200 * m + t) (2 * t)
    have hrlt : (200 * m + t) % (2 * t) < 2 * t := Nat.mod_lt _ (by omega)
    have hrne : (200 * m + t) % (2 * t) ≠ 0 := fun h => hnot (Nat.dvd_of_mod_eq_zero h)
    have hcast : 2 * (t : ℚ) * (specPercentage m t : ℚ) +
        (((200 * m + t) % (2 * t) : Nat) : ℚ) = 200 * (m : ℚ) + t := by
      rw [specPercentage]
      exact_mod_cast hdm
    have hremlo : (1 : ℚ) ≤ (((200 * m + t) % (2 * t) : Nat) : ℚ) := by
      exact_mod_cast Nat.one_le_iff_ne_zero.mpr hrne
    have hremhi : (((200 * m + t) % (2 * t) : Nat) : ℚ) ≤ 2 * (t : ℚ) - 1 := by
      have h1 : ((200 * m + t) % (2 * t)) + 1 ≤ 2 * t := hrlt
      have h2 : ((((200 * m + t) % (2 * t)) + 1 : Nat) : ℚ) ≤ ((2 * t : Nat) : ℚ) := by
        exact_mod_cast h1
      push_cast at h2
      linarith
    have key1 : 2 * (t : ℚ) * (specPercentage m t : ℚ) - t + 1 ≤ 200 * (m : ℚ) := by
      linarith
    have key2 : 200 * (m : ℚ) ≤ 2 * (t : ℚ) * (specPercentage m t : ℚ) + t - 1 := by
      linarith
    have hlow : (specPercentage m t : ℚ) - 1 / 2 + 1 / (2 * t) ≤ 100 * ((m : ℚ) / t) := by
      rw [show (specPercentage m t : ℚ) - 1 / 2 + 1 / (2 * (t : ℚ)) =
        (2 * (t : ℚ) * (specPercentage m t : ℚ) - t + 1) / (2 * t) by field_simp; ring]
      rw [show 100 * ((m : ℚ) / t) = 200 * (m : ℚ) / (2 * t) by field_simp; ring]
      gcongr
    have hhigh : 100 * ((m : ℚ) / t) ≤ (specPercentage m t : ℚ) + 1 / 2 - 1 / (2 * t) := by
      rw [show (specPercentage m t : ℚ) + 1 / 2 - 1 / (2 * (t : ℚ)) =
        (2 * (t : ℚ) * (specPercentage m t : ℚ) + t - 1) / (2 * t) by field_simp; ring]
      rw [show 100 * ((m : ℚ) / t) = 200 * (m : ℚ) / (2 * t) by field_simp; ring]
      gcongr
    have hmarg : ((2 : ℚ) ^ (45 : Nat))⁻¹ ≤ 1 / (2 * t) := by
      rw [inv_eq_one_div]
      apply one_div_le_one_div_of_le h2t
      have h45 : (2 : ℕ) ^ 45 = 2 * 2 ^ 44 := by norm_num
      have hn : 2 * t ≤ 2 ^ 45 := by
        rw [h45]
        exact Nat.mul_le_mul_left 2 htb
      have hq : ((2 * t : Nat) : ℚ) ≤ ((2 ^ 45 : Nat) : ℚ) := by exact_mod_cast hn
      push_cast at hq
      linarith
    have habs := abs_lt.mp herr
    have hup : ((matchPercentage m t : Nat) : ℚ) < (specPercentage m t : ℚ) + 1 := by
      rw [matchPercentage]
      linarith [hjb.2, habs.2]
    have hdown : (specPercentage m t : ℚ) - 1 < ((matchPercentage m t : Nat) : ℚ) := by
      rw [matchPercentage]
      linarith [hjb.1, habs.1]
    have h1 : matchPercentage m t < specPercentage m t + 1 := by
      have : ((matchPercentage m t : Nat) : ℚ) < ((specPercentage m t + 1 : Nat) : ℚ) := by
        push_cast
        linarith
      exact_mod_cast this
    have h2 : specPercentage m t < matchPercentage m t + 1 := by
      have : ((specPercentage m t : Nat) : ℚ) < ((matchPercentage m t + 1 : Nat) : ℚ) := by
        push_cast
        linarith
      exact_mod_cast this
    omega

theorem matchRec_bounds (userSkills : List String) (roles : List Role)
    (m : MatchRec) (hm : (sortedMatches userSkills roles).head? = some m)
    (hreq : ∀ r ∈ roles, r.requiredSkills ≠ []) :
    m.matchCount ≤ m.totalRequired ∧ m.totalRequired ≠ 0 := by
  have hmem := matchRec_mem_of_head? userSkills roles m hm
  rw [matchRecs] at hmem
  obtain ⟨r, hr, hrm⟩ := List.mem_map.mp hmem
  constructor
  · rw [← hrm]
    exact List.length_filter_le _ _
  · rw [← hrm]
    show r.requiredSkills.length ≠ 0
    rw [Ne, List.length_eq_zero]
    exact hreq r hr

/-- C2 counterexample: with one role requiring 40 skills of which the
caller has 23, the binary64 evaluation `Math.round((23/40)*100)` in the
result is 57, while round-half-away-from-zero of the exact ratio 57.5 is
58. -/
theorem match_percentage_counterexample :
    resultPct (recommendCareer calculateScore
      [Role.mk "R" ["a01", "a02", "a03", "a04", "a05", "a06", "a07", "a08", "a09", "a10", "a11", "a12", "a13", "a14", "a15", "a16", "a17", "a18", "a19", "a20", "a21", "a22", "a23", "a24", "a25", "a26", "a27", "a28", "a29", "a30", "a31", "a32", "a33", "a34", "a35", "a36", "a37", "a38", "a39", "a40"]] []
      (some ["a01", "a02", "a03", "a04", "a05", "a06", "a07", "a08", "a09", "a10", "a11", "a12", "a13", "a14", "a15", "a16", "a17", "a18", "a19", "a20", "a21", "a22", "a23"])) = some 57 ∧
    specPercentage 23 40 = 58 ∧ (57 : Nat) ≠ 58 :=
  ⟨by decide, by decide, by decide⟩

/-- C2 (amended): for every non-empty `userSkills`, non-empty Roles table
whose roles all have non-empty `requiredSkills`, the handler answers 200
and the result's `matchPercentage` is the binary64 evaluation of
`Math.round((matchCount/totalRequired)*100)`; it always lies in [0, 100]
(it is a `Nat` here, so 0 ≤ is implicit), and whenever the exact ratio
`matchCount*100/totalRequired` is not exactly a half-integer (and
`totalRequired ≤ 2^44`, which covers every JavaScript array) it equals
round-half-away-from-zero of the exact ratio,
`⌊(200*matchCount + totalRequired) / (2*totalRequired)⌋`. At exact
half-integers the binary64 evaluation may instead round down, as in the
counterexample. -/
theorem match_percentage_amended (scoreFn : Option Skill → Int)
    (roles : List Role) (skillsData : List Skill) (userSkills : List String)
    (hus : userSkills ≠ []) (hroles : roles ≠ [])
    (hreq : ∀ r ∈ roles, r.requiredSkills ≠ []) :
    ∃ res m,
      (sortedMatches userSkills roles).head? = some m ∧
      recommendCareer scoreFn roles skillsData (some userSkills) =
        some (Response.status200 res) ∧
      res.matchPercentage = matchPercentage m.matchCount m.totalRequired ∧
      res.matchPercentage ≤ 100 ∧
      (m.totalRequired ≤ 2 ^ 44 →
        ¬(2 * m.totalRequired ∣ 200 * m.matchCount + m.totalRequired) →
        res.matchPercentage = specPercentage m.matchCount m.totalRequired) := by
  obtain ⟨m, target, hm, htarget, hrun⟩ :=
    recommendCareer_success scoreFn roles skillsData userSkills hus hroles
  obtain ⟨hmt, ht⟩ := matchRec_bounds userSkills roles m hm hreq
  exact ⟨_, m, hm, hrun, rfl, matchPercentage_le_100 _ _ ht hmt,
    fun hb hnd => matchPercentage_eq_spec _ _ ht hmt hb hnd⟩

/-- Witness for the amended C2 on the spec §8.7 scenario (1 of 3 skills,
exact ratio 100/3, not a half-integer; percentage 33). -/
theorem match_percentage_amended_witness :
    (["Node"] : List String) ≠ [] ∧
    ([Role.mk "Backend Developer" ["Node", "SQL", "Docker"],
      Role.mk "Frontend Developer" ["React", "CSS"]] : List Role) ≠ [] ∧
    (∀ r ∈ ([Role.mk "Backend Developer" ["Node", "SQL", "Docker"],
      Role.mk "Frontend Developer" ["React", "CSS"]] : List Role),
        r.requiredSkills ≠ []) ∧
    ∃ res m,
      (sortedMatches ["Node"]
        [Role.mk "Backend Developer" ["Node", "SQL", "Docker"],
         Role.mk "Frontend Developer" ["React", "CSS"]]).head? = some m ∧
      recommendCareer calculateScore
        [Role.mk "Backend Developer" ["Node", "SQL", "Docker"],
         Role.mk "Frontend Developer" ["React", "CSS"]]
        [Skill.mk "SQL" [("demand", 9)], Skill.mk "Docker" [("demand", 7)]]
        (some ["Node"]) = some (Response.status200 res) ∧
      res.matchPercentage = matchPercentage m.matchCount m.totalRequired ∧
      res.matchPercentage ≤ 100 ∧
      (m.totalRequired ≤ 2 ^ 44 →
        ¬(2 * m.totalRequired ∣ 200 * m.matchCount + m.totalRequired) →
        res.matchPercentage = specPercentage m.matchCount m.totalRequired) :=
  ⟨by decide, by decide, by decide,
    match_percentage_amended calculateScore
      [Role.mk "Backend Developer" ["Node", "SQL", "Docker"],
       Role.mk "Frontend Developer" ["React", "CSS"]]
      [Skill.mk "SQL" [("demand", 9)], Skill.mk "Docker" [("demand", 7)]]
      ["Node"] (by decide) (by decide) (by decide)⟩

end SkillCompass
